import Mathlib

/-!
Verification of the secondary-index target parser/serializer
(src/index/secondary_index.cc): `parse`,
`is_local`, `get_target_column_name_from_string`
and `serialize_targets`, embedded shallowly over `List Char`.
The JSON text primitives (the repository's json.hh helpers, backed by
jsoncpp) are not part of the excerpt and are modelled from the spec.
-/

set_option linter.unusedVariables false

namespace SecondaryIndex

/-- Column and raw-target names are modelled as lists of characters. -/
abbrev Name := List Char

/-- JSON values, as produced by the JSON primitive consumed by the target
code.  Modelled from the spec: the spec treats the JSON text encode/decode
primitives (json.hh, not under src/) as out-of-scope standard JSON.
Object fields keep their textual order; numbers are restricted to
integers, which no target-string claim exercises. -/
inductive Json where
  | null : Json
  | bool : Bool → Json
  | num : Int → Json
  | str : Name → Json
  | arr : List Json → Json
  | obj : List (Name × Json) → Json

/-- Whitespace characters skipped between JSON tokens. -/
def isWsChar (c : Char) : Bool := c = ' ' || c = '\t' || c = '\n' || c = '\r'

/-- Drop leading JSON whitespace. -/
def skipWs : List Char → List Char
  | [] => []
  | c :: rest => if isWsChar c then skipWs rest else c :: rest

/-- Resolution of a backslash escape inside a JSON string literal
(the \uXXXX form is not modelled; no claim exercises it). -/
def unescapeChar (c : Char) : Option Char :=
  if c = '"' ∨ c = '\\' ∨ c = '/' then some c
  else if c = 'n' then some '\n'
  else if c = 't' then some '\t'
  else if c = 'r' then some '\r'
  else if c = 'b' then some '\x08'
  else if c = 'f' then some '\x0c'
  else none

/-- Body of a JSON string literal, after the opening quote: the decoded
characters and the remainder after the closing quote. -/
def parseStringBody : List Char → Option (Name × List Char)
  | [] => none
  | c :: rest =>
    if c = '"' then some ([], rest)
    else if c = '\\' then
      match rest with
      | [] => none
      | e :: rest2 => do
          let u ← unescapeChar e
          let p ← parseStringBody rest2
          pure (u :: p.1, p.2)
    else (parseStringBody rest).map (fun p => (c :: p.1, p.2))

/-- Longest leading run of decimal digits. -/
def takeDigits : List Char → List Char × List Char
  | [] => ([], [])
  | c :: rest =>
    if c.isDigit then
      let p := takeDigits rest
      (c :: p.1, p.2)
    else ([], c :: rest)

/-- Numeric value of a digit run. -/
def digitsVal (ds : List Char) : Nat :=
  ds.foldl (fun acc c => 10 * acc + (c.toNat - 48)) 0

/-- JSON number token: an optional minus sign followed by digits. -/
def parseNum (cs : List Char) : Option (Json × List Char) :=
  match cs with
  | '-' :: rest =>
    let p := takeDigits rest
    if p.1.isEmpty then none else some (.num (-(digitsVal p.1 : Int)), p.2)
  | _ =>
    let p := takeDigits cs
    if p.1.isEmpty then none else some (.num (digitsVal p.1), p.2)

mutual

/-- Recursive-descent JSON value reader; the fuel argument only bounds
nesting/iteration and is instantiated with the input length. -/
def parseValue : Nat → List Char → Option (Json × List Char)
  | 0, _ => none
  | f+1, cs =>
    match skipWs cs with
    | '\x7b' :: rest =>
      (match skipWs rest with
       | '\x7d' :: r => some (.obj [], r)
       | _ => (parseFields f (skipWs rest)).map (fun p => (.obj p.1, p.2)))
    | '[' :: rest =>
      (match skipWs rest with
       | ']' :: r => some (.arr [], r)
       | _ => (parseElems f (skipWs rest)).map (fun p => (.arr p.1, p.2)))
    | '"' :: rest => (parseStringBody rest).map (fun p => (.str p.1, p.2))
    | 't' :: rest =>
      if rest.take 3 = "rue".data then some (.bool true, rest.drop 3) else none
    | 'f' :: rest =>
      if rest.take 4 = "alse".data then some (.bool false, rest.drop 4) else none
    | 'n' :: rest =>
      if rest.take 3 = "ull".data then some (.null, rest.drop 3) else none
    | c :: rest => if c = '-' || c.isDigit then parseNum (c :: rest) else none
    | [] => none

/-- Comma-separated array elements, up to the closing bracket. -/
def parseElems : Nat → List Char → Option (List Json × List Char)
  | 0, _ => none
  | f+1, cs => do
      let p ← parseValue f cs
      match skipWs p.2 with
      | ',' :: r2 => (parseElems f r2).map (fun q => (p.1 :: q.1, q.2))
      | ']' :: r2 => some ([p.1], r2)
      | _ => none

/-- Comma-separated object members, up to the closing brace. -/
def parseFields : Nat → List Char → Option (List (Name × Json) × List Char)
  | 0, _ => none
  | f+1, cs =>
      match skipWs cs with
      | '"' :: rest => do
          let kp ← parseStringBody rest
          match skipWs kp.2 with
          | ':' :: r2 => do
              let vp ← parseValue f r2
              match skipWs vp.2 with
              | ',' :: r4 => (parseFields f r4).map (fun q => ((kp.1, vp.1) :: q.1, q.2))
              | '\x7d' :: r4 => some ([(kp.1, vp.1)], r4)
              | _ => none
          | _ => none
      | _ => none

end

/-- Modelled from the spec: json.hh's `to_json_value` (not under src/)
parses raw text into a JSON value; the whole input must be consumed apart
from trailing whitespace.  Returns `none` where the C++ helper reports
failure through its boolean result. -/
def to_json_value (cs : List Char) : Option Json :=
  match parseValue (cs.length + 1) cs with
  | some p => if (skipWs p.2).isEmpty then some p.1 else none
  | none => none

/-- Field lookup in a JSON object's member list (first match wins). -/
def jlookup : List (Name × Json) → Name → Option Json
  | [], _ => none
  | kv :: fs, key => if kv.1 = key then some kv.2 else jlookup fs key

/-- Modelled from the spec: jsoncpp `Value::get(key, default)` as used by
the target code (json.hh collaborators, not under src/): an object yields
the member named `key` or the default; a value holding no members yields
the default. -/
def Json.get (j : Json) (key : Name) (dflt : Json) : Json :=
  match j with
  | .obj fs => (jlookup fs key).getD dflt
  | _ => dflt

/-- jsoncpp `Value::isObject`. -/
def Json.isObject : Json → Bool
  | .obj _ => true
  | _ => false

/-- jsoncpp `Value::isArray`. -/
def Json.isArray : Json → Bool
  | .arr _ => true
  | _ => false

/-- Modelled from the spec: jsoncpp `Value::empty()` (json.hh collaborators,
not under src/): true for null and for empty arrays/objects, false for every
other value, including every scalar. -/
def Json.jempty : Json → Bool
  | .null => true
  | .arr es => es.isEmpty
  | .obj fs => fs.isEmpty
  | _ => false

/-- Elements of a JSON array (other values hold none). -/
def Json.elems : Json → List Json
  | .arr es => es
  | _ => []

/-- Modelled from the spec: jsoncpp `Value::asString` — the stringification
applied to each pk/ck array element: a string yields its contents, null the
empty string, booleans and integers their textual form. -/
def asStringCore : Json → Name
  | .str s => s
  | .null => []
  | .bool true => "true".data
  | .bool false => "false".data
  | .num n => (toString n).data
  | .arr _ => []
  | .obj _ => []

/-- Escaping of JSON string contents: quote and backslash get a backslash. -/
def escapeStr : Name → List Char
  | [] => []
  | c :: rest =>
    if c = '"' || c = '\\' then '\\' :: c :: escapeStr rest
    else c :: escapeStr rest

/-- Rendered JSON string literal. -/
def renderStr (s : Name) : List Char := '"' :: (escapeStr s ++ ['"'])

mutual

/-- Modelled from the spec: json.hh's `to_sstring` (not under src/) renders
a JSON value to its canonical compact text form, object fields in insertion
order. -/
def render : Json → List Char
  | .null => "null".data
  | .bool true => "true".data
  | .bool false => "false".data
  | .num n => (toString n).data
  | .str s => renderStr s
  | .arr es => '[' :: (renderElems es ++ [']'])
  | .obj fs => '\x7b' :: (renderFields fs ++ ['\x7d'])

/-- Comma-joined renderings of array elements. -/
def renderElems : List Json → List Char
  | [] => []
  | [e] => render e
  | e :: es => render e ++ ',' :: renderElems es

/-- Comma-joined renderings of object members. -/
def renderFields : List (Name × Json) → List Char
  | [] => []
  | [kv] => renderStr kv.1 ++ ':' :: render kv.2
  | kv :: fs => renderStr kv.1 ++ ':' :: render kv.2 ++ ',' :: renderFields fs

end

/-- The four indexing modes of `cql3::statements::index_target::target_type`.
Modelled from the spec: the enum itself lives in cql3/statements/index_target,
not under src/. -/
inductive TargetType where
  | keys | entries | values | full
deriving DecidableEq

/-- Result of `parse` (`target_info`): columns
are identified by their canonical names, which is how the schema resolver of
the source looks them up and how `index_target` prints them back. -/
structure TargetInfo where
  pk_columns : List Name
  ck_columns : List Name
  type : TargetType
deriving DecidableEq

/-- Failures of `parse`: the `Column {} not found` throw of
`get_column` and the `pk and ck fields of JSON definition must be arrays`
throw of the JSON branch. -/
inductive ParseError where
  | columnNotFound : Name → ParseError
  | malformedTargetSpec : ParseError
deriving DecidableEq

/-- The JSON key `"pk"` (PK_TARGET_KEY). -/
def pkKey : Name := ['p', 'k']

/-- The JSON key `"ck"` (CK_TARGET_KEY). -/
def ckKey : Name := ['c', 'k']

/-- Body check shared by the four keyword alternatives of `target_regex`
(`^(keys|entries|values|full)\((.+)\)$`): after the opening parenthesis the
remainder must be a non-empty run of non-line-terminator characters (`.` of
ECMAScript excludes line terminators) followed by the final closing
parenthesis, which greedy `(.+)` leaves as the last character. -/
def checkBody (rest : List Char) : Option Name :=
  let inner := rest.dropLast
  if rest.getLast? = some ')' ∧ inner ≠ [] ∧ ∀ c ∈ inner, c ≠ '\n' ∧ c ≠ '\r' then
    some inner
  else none

/-- Keyword alternation of `target_regex`: which of the four mode keywords,
each followed by the opening parenthesis, starts the string (the keywords
start with four distinct characters, so at most one alternative fires). -/
def keywordAndRest (cs : List Char) : Option (TargetType × List Char) :=
  if cs.take 5 = "keys(".data then some (.keys, cs.drop 5)
  else if cs.take 8 = "entries(".data then some (.entries, cs.drop 8)
  else if cs.take 7 = "values(".data then some (.values, cs.drop 7)
  else if cs.take 5 = "full(".data then some (.full, cs.drop 5)
  else none

/-- `std::regex_match` against `target_regex`, yielding the mode keyword and
the parenthesized capture on a whole-string match. -/
def matchTarget (cs : List Char) : Option (TargetType × Name) :=
  match keywordAndRest cs with
  | some (t, rest) => (checkBody rest).map (fun b => (t, b))
  | none => none

/-- The column-resolution capability: whether the schema holds a column of
the given name.  The source's `schema->get_column_definition` looks a column
up by its exact name, so the handle it returns is identified here with that
name. -/
abbrev Resolver := Name → Bool

/-- The `get_column` lambda of `parse`: resolve a name or
fail with the `Column {} not found` error. -/
def getColumn (resolve : Resolver) (name : Name) : Except ParseError Name :=
  if resolve name then .ok name else .error (.columnNotFound name)

/-- The final fallback of `parse`: the whole string is one
column name. -/
def bareFallback (resolve : Resolver) (target : List Char) : Except ParseError TargetInfo := do
  let c ← getColumn resolve target
  pure ⟨[c], [], .values⟩

/-- The per-array resolution loop of the JSON branch of `parse`: each
element is stringified and resolved in array order, the first failure
aborting the loop. -/
def resolveAll (resolve : Resolver) : List Json → Except ParseError (List Name)
  | [] => .ok []
  | e :: es => do
      let c ← getColumn resolve (asStringCore e)
      let cs ← resolveAll resolve es
      pure (c :: cs)

/-- The JSON-object branch of `parse`, applied to the extracted `pk` and
`ck` members: both must be arrays, whose elements are stringified and
resolved in order. -/
def jsonBranch (resolve : Resolver) (pk ck : Json) : Except ParseError TargetInfo :=
  match pk, ck with
  | .arr pes, .arr ces => do
      let pkCols ← resolveAll resolve pes
      let ckCols ← resolveAll resolve ces
      pure ⟨pkCols, ckCols, .values⟩
  | _, _ => .error .malformedTargetSpec

/-- `the target parse entry point`: regex match first, then the
JSON-object form, then the bare fallback. -/
def parse (resolve : Resolver) (target : List Char) : Except ParseError TargetInfo :=
  match matchTarget target with
  | some (t, inner) => do
      let c ← getColumn resolve inner
      pure ⟨[c], [], t⟩
  | none =>
    match to_json_value target with
    | some j =>
      if j.isObject then
        jsonBranch resolve (j.get pkKey (.arr [])) (j.get ckKey (.arr []))
      else bareFallback resolve target
    | none => bareFallback resolve target

/-- `is_local`: the stored target is JSON whose `pk` and `ck`
members (empty-array default) are both non-empty in the jsoncpp sense. -/
def is_local (target : List Char) : Bool :=
  match to_json_value target with
  | none => false
  | some j =>
    let pk := j.get pkKey (.arr [])
    let ck := j.get ckKey (.arr [])
    !pk.jempty && !ck.jempty

/-- `get_target_column_name_from_string`: best-effort
extraction of a representative column name, with pass-through defaults. -/
def get_target_column_name_from_string (targets : List Char) : Name :=
  match to_json_value targets with
  | none => targets
  | some j =>
    let pk := j.get pkKey (.arr [])
    let ck := j.get ckKey (.arr [])
    if ck.isArray && !ck.jempty then asStringCore (ck.elems.headD .null)
    else if pk.isArray && !pk.jempty then asStringCore (pk.elems.headD .null)
    else targets

/-- One element of the `targets` vector handed to
`serialize_targets`: the value variant of
`cql3::statements::index_target` (single column or composite), with columns
again identified by their canonical names. -/
inductive IndexTargetValue where
  | single : Name → IndexTargetValue
  | multiple : List Name → IndexTargetValue
deriving DecidableEq

/-- The `as_json_visitor` of `serialize_targets`: a composite becomes the
array of its columns' strings, a single column its string. -/
def asJsonVisitor : IndexTargetValue → Json
  | .single c => .str c
  | .multiple cs => .arr (cs.map .str)

/-- `serialize_targets`.  The source indexes `targets.front()`
under a non-emptiness precondition; the empty vector is mapped to the empty
string here. -/
def serialize_targets (targets : List IndexTargetValue) : List Char :=
  match targets with
  | [.single c] => c
  | t :: rest =>
      let pkJson := asJsonVisitor t
      let pkJson := if pkJson.isArray then pkJson else .arr [pkJson]
      let fields := [(pkKey, pkJson)]
      let fields := if rest.isEmpty then fields else fields ++ [(ckKey, .arr (rest.map asJsonVisitor))]
      render (.obj fields)
  | [] => []

/-- Modelled from the spec: `columns_of(d)` — the list of target expressions
carrying a parsed descriptor's columns back into `serialize`.  A descriptor
of exactly one partition-key column and no clustering-key columns is the
single-column target the legacy bare form serializes; otherwise the
partition-key columns form the leading composite target and each
clustering-key column its own single-column target. -/
def targets_of (d : TargetInfo) : List IndexTargetValue :=
  match d.pk_columns, d.ck_columns with
  | [c], [] => [.single c]
  | pks, cks => .multiple pks :: cks.map .single

/-- The spec's words for how the `pk` field encodes the first target:
always a JSON array, a single column wrapped in a one-element array, a
composite as its full array of column strings.  (Spec-side definition for
the refinement comparison of the serializer claim.) -/
def encodeAsArray : IndexTargetValue → Json
  | .single c => .arr [.str c]
  | .multiple cs => .arr (cs.map .str)

/-- The spec's words for the encoding of the remaining targets collected
into the `ck` array.  (Spec-side definition for the refinement comparison
of the serializer claim.) -/
def encodeElement : IndexTargetValue → Json
  | .single c => .str c
  | .multiple cs => .arr (cs.map .str)

/-- The serializer's output as the spec describes it: exactly one
single-column target yields the bare canonical name; otherwise a JSON
object whose `pk` field is the first target encoded as an array, with a
`ck` field collecting the encodings of the targets from index 1 onward
present exactly when there is more than one target.  (Definition follows
the spec's words, to be compared with `serialize_targets`.) -/
def serializeSpecForm : List IndexTargetValue → List Char
  | [.single c] => c
  | t :: rest =>
      render (.obj ([(pkKey, encodeAsArray t)] ++
        (if 1 < (t :: rest).length then [(ckKey, .arr (rest.map encodeElement))] else [])))
  | [] => []

/-! ### Basic lemmas about the regex embedding and resolution -/

/-- The keys alternative fires on the literal prefix. -/
theorem keywordAndRest_keys (x : List Char) :
    keywordAndRest ("keys(".data ++ x) = some (.keys, x) := rfl

/-- The entries alternative fires on the literal prefix. -/
theorem keywordAndRest_entries (x : List Char) :
    keywordAndRest ("entries(".data ++ x) = some (.entries, x) := rfl

/-- The values alternative fires on the literal prefix. -/
theorem keywordAndRest_values (x : List Char) :
    keywordAndRest ("values(".data ++ x) = some (.values, x) := rfl

/-- The full alternative fires on the literal prefix. -/
theorem keywordAndRest_full (x : List Char) :
    keywordAndRest ("full(".data ++ x) = some (.full, x) := rfl

/-- A fired keyword alternative exposes the string's literal prefix. -/
theorem keywordAndRest_shape {cs : List Char} {t : TargetType} {rest : List Char}
    (h : keywordAndRest cs = some (t, rest)) :
    cs = "keys(".data ++ rest ∨ cs = "entries(".data ++ rest ∨
    cs = "values(".data ++ rest ∨ cs = "full(".data ++ rest := by
  unfold keywordAndRest at h
  split at h
  · obtain ⟨rfl, rfl⟩ : t = .keys ∧ rest = cs.drop 5 := by
      cases h; exact ⟨rfl, rfl⟩
    left
    conv_lhs => rw [← List.take_append_drop 5 cs]
    rw [‹cs.take 5 = "keys(".data›]
  · split at h
    · obtain ⟨rfl, rfl⟩ : t = .entries ∧ rest = cs.drop 8 := by
        cases h; exact ⟨rfl, rfl⟩
      right; left
      conv_lhs => rw [← List.take_append_drop 8 cs]
      rw [‹cs.take 8 = "entries(".data›]
    · split at h
      · obtain ⟨rfl, rfl⟩ : t = .values ∧ rest = cs.drop 7 := by
          cases h; exact ⟨rfl, rfl⟩
        right; right; left
        conv_lhs => rw [← List.take_append_drop 7 cs]
        rw [‹cs.take 7 = "values(".data›]
      · split at h
        · obtain ⟨rfl, rfl⟩ : t = .full ∧ rest = cs.drop 5 := by
            cases h; exact ⟨rfl, rfl⟩
          right; right; right
          conv_lhs => rw [← List.take_append_drop 5 cs]
          rw [‹cs.take 5 = "full(".data›]
        · cases h

/-- The body capture of the regex on an explicit parenthesized suffix. -/
theorem checkBody_concat (c : Name) (hne : c ≠ [])
    (hl : ∀ ch ∈ c, ch ≠ '\n' ∧ ch ≠ '\r') :
    checkBody (c ++ [')']) = some c := by
  unfold checkBody
  rw [if_pos]
  · simp
  · refine ⟨?_, ?_, ?_⟩
    · simp [List.getLast?_concat]
    · simpa using hne
    · simpa using hl

set_option maxHeartbeats 2000000 in
/-- No JSON value starts with the character k. -/
theorem parseValue_head_k (f : Nat) (u : List Char) : parseValue (f+1) ('k' :: u) = none := rfl

set_option maxHeartbeats 2000000 in
/-- No JSON value starts with the character e. -/
theorem parseValue_head_e (f : Nat) (u : List Char) : parseValue (f+1) ('e' :: u) = none := rfl

set_option maxHeartbeats 2000000 in
/-- No JSON value starts with the character v. -/
theorem parseValue_head_v (f : Nat) (u : List Char) : parseValue (f+1) ('v' :: u) = none := rfl

set_option maxHeartbeats 2000000 in
/-- No JSON value starts with the two characters f and u. -/
theorem parseValue_head_fu (f : Nat) (u : List Char) :
    parseValue (f+1) ('f' :: 'u' :: u) = none := rfl

/-- A string the legacy functional regex matches is not parseable JSON:
the four keywords start with characters no JSON value can start with. -/
theorem to_json_value_of_matchTarget {cs : List Char} {r : TargetType × Name}
    (h : matchTarget cs = some r) : to_json_value cs = none := by
  unfold matchTarget at h
  cases hk : keywordAndRest cs with
  | none => rw [hk] at h; cases h
  | some p =>
    obtain ⟨t, rest⟩ := p
    rcases keywordAndRest_shape hk with h1 | h1 | h1 | h1 <;> subst h1 <;>
      simp [to_json_value, parseValue_head_k, parseValue_head_e, parseValue_head_v,
        parseValue_head_fu, List.append_eq]

/-- Contrapositive: parseable JSON never matches the functional regex. -/
theorem matchTarget_none_of_json {cs : List Char} {j : Json}
    (h : to_json_value cs = some j) : matchTarget cs = none := by
  cases hm : matchTarget cs with
  | none => rfl
  | some r => rw [to_json_value_of_matchTarget hm] at h; cases h

/-- Successful resolution returns the looked-up name itself and certifies
the resolver accepted it. -/
theorem getColumn_ok_inv {resolve : Resolver} {name c : Name}
    (h : getColumn resolve name = .ok c) : c = name ∧ resolve name = true := by
  unfold getColumn at h
  split at h
  · cases h; exact ⟨rfl, by assumption⟩
  · cases h

/-- A rejected name fails resolution with that name. -/
theorem getColumn_of_resolve {resolve : Resolver} {name : Name} :
    getColumn resolve name = if resolve name then .ok name else .error (.columnNotFound name) :=
  rfl

/-- The element-resolution loop succeeds on a list of resolvable elements,
returning their stringifications in order. -/
theorem resolveAll_ok_of {resolve : Resolver} {es : List Json}
    (h : ∀ e ∈ es, resolve (asStringCore e) = true) :
    resolveAll resolve es = .ok (es.map asStringCore) := by
  induction es with
  | nil => rfl
  | cons e es ih =>
    have he : resolve (asStringCore e) = true := h e (by simp)
    have ihh := ih (fun x hx => h x (List.mem_cons_of_mem e hx))
    simp [resolveAll, getColumn, he, ihh]
    rfl

/-- Inversion of the element-resolution loop: on success the columns are
the stringified elements in order, each accepted by the resolver. -/
theorem resolveAll_ok_inv {resolve : Resolver} {es : List Json} {cols : List Name}
    (h : resolveAll resolve es = .ok cols) :
    cols = es.map asStringCore ∧ ∀ e ∈ es, resolve (asStringCore e) = true := by
  induction es generalizing cols with
  | nil =>
    cases h
    exact ⟨rfl, by simp⟩
  | cons e es ih =>
    unfold resolveAll at h
    cases hg : getColumn resolve (asStringCore e) with
    | error err => rw [hg] at h; cases h
    | ok c =>
      rw [hg] at h
      cases hr : resolveAll resolve es with
      | error err => rw [hr] at h; cases h
      | ok cs =>
        rw [hr] at h
        cases h
        obtain ⟨rfl, hres⟩ := getColumn_ok_inv hg
        obtain ⟨rfl, hall⟩ := ih hr
        refine ⟨rfl, fun x hx => ?_⟩
        cases List.mem_cons.mp hx with
        | inl h => exact h ▸ hres
        | inr h => exact hall x h

/-! ### The three parse paths -/

/-- The JSON branch succeeds on two arrays of resolvable elements. -/
theorem jsonBranch_arrs {resolve : Resolver} {pes ces : List Json}
    (hp : ∀ e ∈ pes, resolve (asStringCore e) = true)
    (hc : ∀ e ∈ ces, resolve (asStringCore e) = true) :
    jsonBranch resolve (.arr pes) (.arr ces) =
      .ok ⟨pes.map asStringCore, ces.map asStringCore, .values⟩ := by
  simp only [jsonBranch]
  rw [resolveAll_ok_of hp, resolveAll_ok_of hc]
  rfl

/-- The JSON branch rejects a non-array pk or ck member. -/
theorem jsonBranch_not_arr {resolve : Resolver} {pk ck : Json}
    (h : pk.isArray = false ∨ ck.isArray = false) :
    jsonBranch resolve pk ck = .error .malformedTargetSpec := by
  cases pk <;> cases ck <;>
    first
      | rfl
      | exact absurd h (by simp [Json.isArray])

/-- Inversion of the JSON branch on success. -/
theorem jsonBranch_ok_inv {resolve : Resolver} {pk ck : Json} {d : TargetInfo}
    (h : jsonBranch resolve pk ck = .ok d) :
    ∃ pes ces, pk = .arr pes ∧ ck = .arr ces ∧
      d = ⟨pes.map asStringCore, ces.map asStringCore, .values⟩ ∧
      (∀ e ∈ pes, resolve (asStringCore e) = true) ∧
      (∀ e ∈ ces, resolve (asStringCore e) = true) := by
  have hpa : pk.isArray = true := by
    cases hb : pk.isArray with
    | true => rfl
    | false => rw [jsonBranch_not_arr (Or.inl hb)] at h; cases h
  have hca : ck.isArray = true := by
    cases hb : ck.isArray with
    | true => rfl
    | false => rw [jsonBranch_not_arr (Or.inr hb)] at h; cases h
  obtain ⟨pes, rfl⟩ : ∃ es, pk = .arr es := by
    cases pk <;> simp [Json.isArray] at hpa <;> exact ⟨_, rfl⟩
  obtain ⟨ces, rfl⟩ : ∃ es, ck = .arr es := by
    cases ck <;> simp [Json.isArray] at hca <;> exact ⟨_, rfl⟩
  refine ⟨pes, ces, rfl, rfl, ?_⟩
  simp only [jsonBranch] at h
  cases hp : resolveAll resolve pes with
  | error e => rw [hp] at h; cases h
  | ok pkCols =>
    rw [hp] at h
    cases hc : resolveAll resolve ces with
    | error e => rw [hc] at h; cases h
    | ok ckCols =>
      rw [hc] at h
      obtain ⟨rfl, hpres⟩ := resolveAll_ok_inv hp
      obtain ⟨rfl, hcres⟩ := resolveAll_ok_inv hc
      cases h
      exact ⟨rfl, hpres, hcres⟩

/-- The JSON-object path of `parse` on resolvable array elements. -/
theorem parse_json_ok {resolve : Resolver} {s : List Char} {j : Json}
    {pes ces : List Json}
    (hj : to_json_value s = some j) (hobj : j.isObject = true)
    (hpk : j.get pkKey (.arr []) = .arr pes) (hck : j.get ckKey (.arr []) = .arr ces)
    (hres : ∀ e ∈ pes ++ ces, resolve (asStringCore e) = true) :
    parse resolve s = .ok ⟨pes.map asStringCore, ces.map asStringCore, .values⟩ := by
  have hm := matchTarget_none_of_json hj
  unfold parse
  rw [hm, hj]
  simp only [hobj, if_true]
  rw [hpk, hck]
  exact jsonBranch_arrs (fun e he => hres e (List.mem_append_left _ he))
    (fun e he => hres e (List.mem_append_right _ he))

/-- The bare-fallback path of `parse`: no regex match, no JSON object. -/
theorem parse_bare_eq {resolve : Resolver} {s : List Char}
    (hm : matchTarget s = none)
    (hj : ∀ j, to_json_value s = some j → j.isObject = false) :
    parse resolve s =
      if resolve s then .ok ⟨[s], [], .values⟩ else .error (.columnNotFound s) := by
  unfold parse
  rw [hm]
  cases hv : to_json_value s with
  | none =>
    simp [bareFallback, getColumn]
    split <;> rfl
  | some j =>
    have hob := hj j hv
    simp [hob, bareFallback, getColumn]
    split <;> rfl

/-- The JSON-object path of `parse` when a pk or ck field is not an array. -/
theorem parse_json_malformed {resolve : Resolver} {s : List Char} {j : Json}
    (hj : to_json_value s = some j) (hobj : j.isObject = true)
    (hbad : (j.get pkKey (.arr [])).isArray = false ∨ (j.get ckKey (.arr [])).isArray = false) :
    parse resolve s = .error .malformedTargetSpec := by
  have hm := matchTarget_none_of_json hj
  unfold parse
  rw [hm, hj]
  simp only [hobj, if_true]
  exact jsonBranch_not_arr hbad

/-- Success inversion for the two non-functional paths: a successful parse
that did not match the regex came from the bare fallback (one column, the
whole string) or from the JSON-object form (columns the stringified array
elements, every one accepted by the resolver). -/
theorem parse_ok_shape {resolve : Resolver} {s : List Char} {d : TargetInfo}
    (h : parse resolve s = .ok d) (hm : matchTarget s = none) :
    (d = ⟨[s], [], .values⟩ ∧ resolve s = true ∧
       ∀ j, to_json_value s = some j → j.isObject = false) ∨
    (∃ j pes ces, to_json_value s = some j ∧ j.isObject = true ∧
       j.get pkKey (.arr []) = .arr pes ∧ j.get ckKey (.arr []) = .arr ces ∧
       d = ⟨pes.map asStringCore, ces.map asStringCore, .values⟩ ∧
       (∀ e ∈ pes, resolve (asStringCore e) = true) ∧
       (∀ e ∈ ces, resolve (asStringCore e) = true)) := by
  unfold parse at h
  rw [hm] at h
  cases hv : to_json_value s with
  | none =>
    rw [hv] at h
    left
    unfold bareFallback at h
    cases hg : getColumn resolve s with
    | error e => rw [hg] at h; cases h
    | ok c =>
      rw [hg] at h
      obtain ⟨rfl, hres⟩ := getColumn_ok_inv hg
      cases h
      refine ⟨rfl, hres, ?_⟩
      intro j hj
      cases hj
  | some j =>
    rw [hv] at h
    by_cases hob : j.isObject = true
    · simp only [hob, if_true] at h
      right
      obtain ⟨pes, ces, hpk, hck, rfl, hpres, hcres⟩ := jsonBranch_ok_inv h
      exact ⟨j, pes, ces, rfl, hob, hpk, hck, rfl, hpres, hcres⟩
    · have hob' : j.isObject = false := by simpa using hob
      simp only [hob', Bool.false_eq_true, if_false] at h
      left
      unfold bareFallback at h
      cases hg : getColumn resolve s with
      | error e => rw [hg] at h; cases h
      | ok c =>
        rw [hg] at h
        obtain ⟨rfl, hres⟩ := getColumn_ok_inv hg
        cases h
        refine ⟨rfl, hres, ?_⟩
        intro j' hj'
        cases hj'
        exact hob'

/-- The functional path of `parse` on any regex match with resolvable capture. -/
theorem parse_of_matchTarget {resolve : Resolver} {s : List Char} {t : TargetType}
    {inner : Name} (hm : matchTarget s = some (t, inner)) (hres : resolve inner = true) :
    parse resolve s = .ok ⟨[inner], [], t⟩ := by
  unfold parse
  rw [hm]
  simp [getColumn, hres]

/-- The regex matches keys around an explicit body. -/
theorem matchTarget_keys (c : Name) (hne : c ≠ [])
    (hl : ∀ ch ∈ c, ch ≠ '\n' ∧ ch ≠ '\r') :
    matchTarget ("keys(".data ++ c ++ ")".data) = some (.keys, c) := by
  rw [List.append_assoc]
  show matchTarget ("keys(".data ++ (c ++ [')'])) = _
  unfold matchTarget
  rw [keywordAndRest_keys]
  simp [checkBody_concat c hne hl]

/-- The regex matches entries around an explicit body. -/
theorem matchTarget_entries (c : Name) (hne : c ≠ [])
    (hl : ∀ ch ∈ c, ch ≠ '\n' ∧ ch ≠ '\r') :
    matchTarget ("entries(".data ++ c ++ ")".data) = some (.entries, c) := by
  rw [List.append_assoc]
  show matchTarget ("entries(".data ++ (c ++ [')'])) = _
  unfold matchTarget
  rw [keywordAndRest_entries]
  simp [checkBody_concat c hne hl]

/-- The regex matches values around an explicit body. -/
theorem matchTarget_values (c : Name) (hne : c ≠ [])
    (hl : ∀ ch ∈ c, ch ≠ '\n' ∧ ch ≠ '\r') :
    matchTarget ("values(".data ++ c ++ ")".data) = some (.values, c) := by
  rw [List.append_assoc]
  show matchTarget ("values(".data ++ (c ++ [')'])) = _
  unfold matchTarget
  rw [keywordAndRest_values]
  simp [checkBody_concat c hne hl]

/-- The regex matches full around an explicit body. -/
theorem matchTarget_full (c : Name) (hne : c ≠ [])
    (hl : ∀ ch ∈ c, ch ≠ '\n' ∧ ch ≠ '\r') :
    matchTarget ("full(".data ++ c ++ ")".data) = some (.full, c) := by
  rw [List.append_assoc]
  show matchTarget ("full(".data ++ (c ++ [')'])) = _
  unfold matchTarget
  rw [keywordAndRest_full]
  simp [checkBody_concat c hne hl]

/-! ### Claim theorems -/

/-- C2: on an input that parses as a JSON object whose pk and ck fields
(defaulting to empty arrays) are arrays of resolvable elements, `parse`
returns the resolved pk elements as partition-key columns and the resolved
ck elements as clustering-key columns, each in array order, with mode
Values. -/
theorem claim_c2 {resolve : Resolver} {s : List Char} {j : Json} {pes ces : List Json}
    (hj : to_json_value s = some j) (hobj : j.isObject = true)
    (hpk : j.get pkKey (.arr []) = .arr pes) (hck : j.get ckKey (.arr []) = .arr ces)
    (hres : ∀ e ∈ pes ++ ces, resolve (asStringCore e) = true) :
    parse resolve s = .ok ⟨pes.map asStringCore, ces.map asStringCore, .values⟩ :=
  parse_json_ok hj hobj hpk hck hres

set_option maxHeartbeats 2000000 in
/-- Witness for C2 at the spec's example: parsing the two-pk one-ck JSON
object yields partition-key columns a, b and clustering-key column c with
mode Values. -/
theorem claim_c2_witness :
    parse (fun n => n == ['a'] || n == ['b'] || n == ['c'])
        "\x7b\"pk\":[\"a\",\"b\"],\"ck\":[\"c\"]\x7d".data =
      .ok ⟨[['a'], ['b']], [['c']], .values⟩ :=
  @claim_c2 (fun n => n == ['a'] || n == ['b'] || n == ['c'])
    "\x7b\"pk\":[\"a\",\"b\"],\"ck\":[\"c\"]\x7d".data
    (.obj [(pkKey, .arr [.str ['a'], .str ['b']]), (ckKey, .arr [.str ['c']])])
    [.str ['a'], .str ['b']] [.str ['c']] rfl rfl rfl rfl (by decide)

/-- C3: each of the four mode keywords (case-sensitively, exactly) around a
parenthesized non-empty resolvable column name parses to that mode with the
single partition-key column and no clustering-key columns. -/
theorem claim_c3 {resolve : Resolver} {c : Name} (hne : c ≠ [])
    (hl : ∀ ch ∈ c, ch ≠ '\n' ∧ ch ≠ '\r') (hres : resolve c = true) :
    parse resolve ("keys(".data ++ c ++ ")".data) = .ok ⟨[c], [], .keys⟩ ∧
    parse resolve ("entries(".data ++ c ++ ")".data) = .ok ⟨[c], [], .entries⟩ ∧
    parse resolve ("values(".data ++ c ++ ")".data) = .ok ⟨[c], [], .values⟩ ∧
    parse resolve ("full(".data ++ c ++ ")".data) = .ok ⟨[c], [], .full⟩ :=
  ⟨parse_of_matchTarget (matchTarget_keys c hne hl) hres,
   parse_of_matchTarget (matchTarget_entries c hne hl) hres,
   parse_of_matchTarget (matchTarget_values c hne hl) hres,
   parse_of_matchTarget (matchTarget_full c hne hl) hres⟩

set_option maxHeartbeats 2000000 in
/-- Witness for C3 at the column name col. -/
theorem claim_c3_witness :
    parse (fun n => n == "col".data) "keys(col)".data = .ok ⟨["col".data], [], .keys⟩ ∧
    parse (fun n => n == "col".data) "entries(col)".data = .ok ⟨["col".data], [], .entries⟩ ∧
    parse (fun n => n == "col".data) "values(col)".data = .ok ⟨["col".data], [], .values⟩ ∧
    parse (fun n => n == "col".data) "full(col)".data = .ok ⟨["col".data], [], .full⟩ :=
  @claim_c3 (fun n => n == "col".data) "col".data (by decide) (by decide) (by decide)

/-- C6: an input neither matching the legacy functional form nor parsing as
a JSON object is treated whole as one column name: resolution success gives
mode Values with that single partition-key column, and resolver rejection
fails with ColumnNotFound carrying the whole input. -/
theorem claim_c6 {resolve : Resolver} {s : List Char}
    (hm : matchTarget s = none)
    (hj : ∀ j, to_json_value s = some j → j.isObject = false) :
    parse resolve s =
      if resolve s then .ok ⟨[s], [], .values⟩ else .error (.columnNotFound s) :=
  parse_bare_eq hm hj

set_option maxHeartbeats 2000000 in
/-- Witness for C6: a resolver rejecting everything fails on the bare input
with ColumnNotFound of that input. -/
theorem claim_c6_witness :
    parse (fun _ => false) "unknown_col".data =
      .error (.columnNotFound "unknown_col".data) := by
  have h := @claim_c6 (fun _ => false) "unknown_col".data rfl
    (fun j hj => by rw [show to_json_value "unknown_col".data = none from rfl] at hj; cases hj)
  simpa using h

/-- C7: an input parsing as a JSON object whose pk or ck field is present
but not an array fails with the malformed-target error. -/
theorem claim_c7 {resolve : Resolver} {s : List Char} {j : Json}
    (hj : to_json_value s = some j) (hobj : j.isObject = true)
    (hbad : (j.get pkKey (.arr [])).isArray = false ∨
            (j.get ckKey (.arr [])).isArray = false) :
    parse resolve s = .error .malformedTargetSpec :=
  parse_json_malformed hj hobj hbad

set_option maxHeartbeats 2000000 in
/-- Witness for C7 at the spec's example: a string-valued pk field is
rejected as malformed even though every name resolves. -/
theorem claim_c7_witness :
    parse (fun _ => true) "\x7b\"pk\":\"notarray\"\x7d".data =
      .error .malformedTargetSpec :=
  @claim_c7 (fun _ => true) "\x7b\"pk\":\"notarray\"\x7d".data
    (.obj [(pkKey, .str "notarray".data)]) rfl rfl (Or.inl rfl)

set_option maxHeartbeats 2000000 in
/-- C4 counterexample: `is_local` returns true on a JSON object whose pk
and ck fields are strings, not non-empty arrays — the source checks only
jsoncpp non-emptiness, never array-ness, so the claimed iff fails at this
input. -/
theorem claim_c4_counterexample :
    is_local "\x7b\"pk\":\"a\",\"ck\":\"b\"\x7d".data = true ∧
    to_json_value "\x7b\"pk\":\"a\",\"ck\":\"b\"\x7d".data =
      some (.obj [(pkKey, .str ['a']), (ckKey, .str ['b'])]) ∧
    Json.isArray (.str ['a']) = false ∧ Json.isArray (.str ['b']) = false :=
  ⟨rfl, rfl, rfl, rfl⟩

/-- C4 amended: `is_local` returns true exactly when the input parses as
JSON and both the pk and ck members (fetched with an empty-array default,
so absent fields count as empty) are non-empty in the jsoncpp sense — a
non-empty array or object, or any non-null scalar; array-ness is not
checked.  It never raises: every other input, JSON or not, yields false. -/
theorem claim_c4_amended (s : List Char) :
    is_local s = true ↔ ∃ j, to_json_value s = some j ∧
      (j.get pkKey (.arr [])).jempty = false ∧ (j.get ckKey (.arr [])).jempty = false := by
  unfold is_local
  cases hv : to_json_value s with
  | none => simp
  | some j => simp

/-- C9 counterexample: `parse` accepts the empty JSON object and returns a
descriptor with NO partition-key columns, even under a resolver that
rejects every name, refuting the non-emptiness invariant. -/
theorem claim_c9_counterexample :
    parse (fun _ => false) "\x7b\x7d".data = .ok ⟨[], [], .values⟩ := rfl

/-- C9 amended: on success the partition-key columns are non-empty except
through the JSON-object path when the pk member is absent or the empty
array: an empty pk-column list forces the input to be a JSON object whose
extracted pk member is the empty array. -/
theorem claim_c9_amended {resolve : Resolver} {s : List Char} {d : TargetInfo}
    (h : parse resolve s = .ok d) (hpk : d.pk_columns = []) :
    ∃ j, to_json_value s = some j ∧ j.isObject = true ∧
      j.get pkKey (.arr []) = .arr [] := by
  cases hm : matchTarget s with
  | some r =>
    obtain ⟨t, inner⟩ := r
    unfold parse at h
    simp only [hm] at h
    cases hg : getColumn resolve inner with
    | error e => rw [hg] at h; cases h
    | ok c =>
      rw [hg] at h
      cases h
      simp at hpk
  | none =>
    rcases parse_ok_shape h hm with ⟨rfl, _, _⟩ | ⟨j, pes, ces, hv, hobj, hpk2, hck2, rfl, _, _⟩
    · simp at hpk
    · simp at hpk
      rw [hpk] at hpk2
      exact ⟨j, hv, hobj, by simpa using hpk2⟩

/-- Witness for the amended C9 at the empty JSON object. -/
theorem claim_c9_amended_witness :
    ∃ j, to_json_value "\x7b\x7d".data = some j ∧ j.isObject = true ∧
      j.get pkKey (.arr []) = .arr [] :=
  @claim_c9_amended (fun _ => false) "\x7b\x7d".data ⟨[], [], .values⟩ rfl rfl

/-- Bare fallback under an explicitly failed JSON parse. -/
theorem bare_of_not_json {resolve : Resolver} {s : List Char}
    (hm : matchTarget s = none) (hv : to_json_value s = none) :
    parse resolve s =
      if resolve s then .ok ⟨[s], [], .values⟩ else .error (.columnNotFound s) :=
  parse_bare_eq hm (fun j hj => by rw [hv] at hj; cases hj)

/-- C10: for each mode keyword, the input keyword() — empty parentheses —
does not match the functional regex (whose body needs at least one
character), is not parseable JSON either, and so `parse` treats the whole
string, keyword and parentheses included, as a single bare column name. -/
theorem claim_c10 (resolve : Resolver) :
    (matchTarget "keys()".data = none ∧ to_json_value "keys()".data = none ∧
      parse resolve "keys()".data =
        (if resolve "keys()".data then .ok ⟨["keys()".data], [], .values⟩
         else .error (.columnNotFound "keys()".data))) ∧
    (matchTarget "entries()".data = none ∧ to_json_value "entries()".data = none ∧
      parse resolve "entries()".data =
        (if resolve "entries()".data then .ok ⟨["entries()".data], [], .values⟩
         else .error (.columnNotFound "entries()".data))) ∧
    (matchTarget "values()".data = none ∧ to_json_value "values()".data = none ∧
      parse resolve "values()".data =
        (if resolve "values()".data then .ok ⟨["values()".data], [], .values⟩
         else .error (.columnNotFound "values()".data))) ∧
    (matchTarget "full()".data = none ∧ to_json_value "full()".data = none ∧
      parse resolve "full()".data =
        (if resolve "full()".data then .ok ⟨["full()".data], [], .values⟩
         else .error (.columnNotFound "full()".data))) :=
  ⟨⟨rfl, rfl, bare_of_not_json rfl rfl⟩,
   ⟨rfl, rfl, bare_of_not_json rfl rfl⟩,
   ⟨rfl, rfl, bare_of_not_json rfl rfl⟩,
   ⟨rfl, rfl, bare_of_not_json rfl rfl⟩⟩

/-- C8: `get_target_column_name_from_string` needs no resolver and never
fails: a non-JSON input comes back unchanged; on JSON it returns the
stringified first element of the ck array when that array is present and
non-empty, else of the pk array under the same test, else the input
unchanged. -/
theorem claim_c8 (s : List Char) :
    (to_json_value s = none → get_target_column_name_from_string s = s) ∧
    (∀ j, to_json_value s = some j →
      (∀ e es, j.get ckKey (.arr []) = .arr (e :: es) →
        get_target_column_name_from_string s = asStringCore e) ∧
      (((j.get ckKey (.arr [])).isArray = false ∨ j.get ckKey (.arr []) = .arr []) →
        ∀ e es, j.get pkKey (.arr []) = .arr (e :: es) →
          get_target_column_name_from_string s = asStringCore e) ∧
      ((((j.get ckKey (.arr [])).isArray = false ∨ j.get ckKey (.arr []) = .arr []) ∧
        ((j.get pkKey (.arr [])).isArray = false ∨ j.get pkKey (.arr []) = .arr [])) →
        get_target_column_name_from_string s = s)) := by
  refine ⟨?_, ?_⟩
  · intro hv
    unfold get_target_column_name_from_string
    rw [hv]
  · intro j hj
    refine ⟨?_, ?_, ?_⟩
    · intro e es hck
      unfold get_target_column_name_from_string
      rw [hj]
      simp [hck, Json.isArray, Json.jempty, Json.elems]
    · intro hfail e es hpk
      unfold get_target_column_name_from_string
      rw [hj]
      rcases hfail with hf | hf <;> simp only [hf, hpk] <;>
        simp [Json.isArray, Json.jempty, Json.elems]
    · intro hfail
      obtain ⟨hcf, hpf⟩ := hfail
      unfold get_target_column_name_from_string
      rw [hj]
      rcases hcf with hf | hf <;> rcases hpf with hp | hp <;> simp only [hf, hp] <;>
        simp [Json.isArray, Json.jempty, Json.elems]

set_option maxHeartbeats 2000000 in
/-- Witness for C8: pass-through on a plain name, and the first ck element
on a two-field JSON target. -/
theorem claim_c8_witness :
    get_target_column_name_from_string "plain".data = "plain".data ∧
    get_target_column_name_from_string "\x7b\"pk\":[\"a\"],\"ck\":[\"b\"]\x7d".data = ['b'] := by
  constructor
  · exact (claim_c8 "plain".data).1 rfl
  · exact ((claim_c8 "\x7b\"pk\":[\"a\"],\"ck\":[\"b\"]\x7d".data).2
      (.obj [(pkKey, .arr [.str ['a']]), (ckKey, .arr [.str ['b']])]) rfl).1 (.str ['b']) [] rfl

/-- C5: the serializer's output is exactly the format the spec describes —
a lone single-column target serializes to its bare canonical name with no
JSON wrapping; any other non-empty target list becomes a JSON object whose
pk field is the first target always encoded as an array (singles wrapped,
composites as their full array), with a ck field collecting the encodings
of the targets from index 1 onward present exactly when there is more than
one target, and absent — not empty — for a one-element list even when that
element is composite. -/
theorem claim_c5 (ts : List IndexTargetValue) (hne : ts ≠ []) :
    serialize_targets ts = serializeSpecForm ts := by
  have hone : ∀ x : IndexTargetValue, asJsonVisitor x = encodeElement x := fun x => by
    cases x <;> rfl
  cases ts with
  | nil => exact absurd rfl hne
  | cons t rest =>
    cases rest with
    | nil => cases t <;> rfl
    | cons t2 rest2 =>
      have hmap : List.map asJsonVisitor (t2 :: rest2) = List.map encodeElement (t2 :: rest2) :=
        List.map_congr_left (fun x _ => hone x)
      cases t <;>
        simp [serialize_targets, serializeSpecForm, encodeAsArray, asJsonVisitor,
          Json.isArray, hmap]

/-- Witness for C5 on a composite-plus-single target list and on a lone
composite. -/
theorem claim_c5_witness :
    serialize_targets [.multiple [['a'], ['b']], .single ['c']] =
      serializeSpecForm [.multiple [['a'], ['b']], .single ['c']] ∧
    serialize_targets [.multiple [['a'], ['b']]] =
      serializeSpecForm [.multiple [['a'], ['b']]] :=
  ⟨claim_c5 [.multiple [['a'], ['b']], .single ['c']] (by simp),
   claim_c5 [.multiple [['a'], ['b']]] (by simp)⟩

/-! ### Rendered JSON parses back: the lemmas behind the round trip -/

/-- Skipping whitespace leaves a non-whitespace head alone. -/
theorem skipWs_not_ws {c : Char} (l : List Char) (h : isWsChar c = false) :
    skipWs (c :: l) = c :: l := by
  simp [skipWs, h]

/-- Parsing a string body undoes the serializer's escaping. -/
theorem parseStringBody_escape (s : Name) (rest : List Char) :
    parseStringBody (escapeStr s ++ '"' :: rest) = some (s, rest) := by
  induction s with
  | nil =>
    show parseStringBody ('"' :: rest) = some ([], rest)
    conv_lhs => unfold parseStringBody
    simp
  | cons c cs ih =>
    by_cases hq : c = '"'
    · subst hq
      have he : escapeStr ('"' :: cs) = '\\' :: '"' :: escapeStr cs := by
        conv_lhs => unfold escapeStr
        simp
      rw [he, List.cons_append, List.cons_append]
      conv_lhs => unfold parseStringBody
      simp [unescapeChar, ih]
    · by_cases hb : c = '\\'
      · subst hb
        have he : escapeStr ('\\' :: cs) = '\\' :: '\\' :: escapeStr cs := by
          conv_lhs => unfold escapeStr
          simp
        rw [he, List.cons_append, List.cons_append]
        conv_lhs => unfold parseStringBody
        simp [unescapeChar, ih]
      · have he : escapeStr (c :: cs) = c :: escapeStr cs := by
          conv_lhs => unfold escapeStr
          simp [hq, hb]
        rw [he, List.cons_append]
        conv_lhs => unfold parseStringBody
        simp [hq, hb, ih]

/-- A rendered string literal parses as that string under any fuel. -/
theorem parseValue_renderStr (g : Nat) (s : Name) (rest : List Char) :
    parseValue (g+1) (renderStr s ++ rest) = some (.str s, rest) := by
  have : renderStr s ++ rest = '"' :: (escapeStr s ++ '"' :: rest) := by
    simp [renderStr]
  rw [this]
  conv_lhs => unfold parseValue
  rw [skipWs_not_ws _ (by decide)]
  simp [parseStringBody_escape]

/-- A rendered comma-separated run of string literals parses as those
strings, up to the closing bracket, with any spare fuel. -/
theorem parseElems_strs (names : List Name) (hne : names ≠ []) :
    ∀ (g : Nat) (rest : List Char),
    parseElems (g + names.length + 1) (renderElems (names.map .str) ++ ']' :: rest) =
      some (names.map .str, rest) := by
  induction names with
  | nil => exact absurd rfl hne
  | cons x xs ih =>
    intro g rest
    cases xs with
    | nil =>
      have hf : g + [x].length + 1 = (g + 1) + 1 := by simp
      rw [hf]
      simp only [List.map, renderElems, render]
      conv_lhs => unfold parseElems
      rw [parseValue_renderStr]
      simp [skipWs, isWsChar]
    | cons y ys =>
      have hf : g + (x :: y :: ys).length + 1 = (g + (y :: ys).length + 1) + 1 := by
        simp [List.length_cons]
        omega
      rw [hf]
      simp only [List.map, renderElems, render]
      rw [List.append_assoc, List.cons_append]
      conv_lhs => unfold parseElems
      rw [parseValue_renderStr]
      have hskip : ∀ l : List Char, skipWs (',' :: l) = ',' :: l :=
        fun l => skipWs_not_ws _ (by decide)
      simp only [bind, Option.bind, hskip]
      have := ih (by simp) g rest
      simp only [List.map] at this
      rw [this]
      simp

/-- A non-empty run of rendered string literals starts with a quote. -/
theorem renderElems_strs_cons (x : Name) (xs : List Name) :
    ∃ t, renderElems ((x :: xs).map .str) = '"' :: t := by
  cases xs with
  | nil =>
    refine ⟨escapeStr x ++ ['"'], ?_⟩
    simp [List.map, renderElems, render, renderStr]
  | cons y ys =>
    refine ⟨(escapeStr x ++ ['"']) ++ ',' :: renderElems ((y :: ys).map .str), ?_⟩
    simp [List.map, renderElems, render, renderStr]

/-- Dispatch: an opening bracket followed by a non-whitespace character
other than a closing bracket selects element parsing. -/
theorem parseValue_open_bracket (f : Nat) (c : Char) (u : List Char)
    (hws : isWsChar c = false) (hc : c ≠ ']') :
    parseValue (f+1) ('[' :: c :: u) =
      (parseElems f (c :: u)).map (fun p => (.arr p.1, p.2)) := by
  conv_lhs => unfold parseValue
  rw [skipWs_not_ws _ (by decide : isWsChar '[' = false)]
  split
  · rename_i heq; injection heq with h1 h2; exact absurd h1 (by decide)
  · rename_i heq
    injection heq with h1 h2
    subst h2
    rw [skipWs_not_ws _ hws]
    split
    · rename_i heq2; injection heq2 with h3 h4; exact absurd h3 hc
    · rfl
  · rename_i heq; injection heq with h1 h2; exact absurd h1 (by decide)
  · rename_i heq; injection heq with h1 h2; exact absurd h1 (by decide)
  · rename_i heq; injection heq with h1 h2; exact absurd h1 (by decide)
  · rename_i heq; injection heq with h1 h2; exact absurd h1 (by decide)
  · rename_i hbrace hbrack hquote htr hfa hnu heq
    injection heq with h1 h2
    exact absurd h1.symm hbrack
  · rename_i heq; exact absurd heq (by simp)

/-- Dispatch: an opening brace followed by a non-whitespace character other
than a closing brace selects member parsing. -/
theorem parseValue_open_brace (f : Nat) (c : Char) (u : List Char)
    (hws : isWsChar c = false) (hc : c ≠ '\x7d') :
    parseValue (f+1) ('\x7b' :: c :: u) =
      (parseFields f (c :: u)).map (fun p => (.obj p.1, p.2)) := by
  conv_lhs => unfold parseValue
  rw [skipWs_not_ws _ (by decide : isWsChar '\x7b' = false)]
  split
  · rename_i heq
    injection heq with h1 h2
    subst h2
    rw [skipWs_not_ws _ hws]
    split
    · rename_i heq2; injection heq2 with h3 h4; exact absurd h3 hc
    · rfl
  · rename_i heq; injection heq with h1 h2; exact absurd h1 (by decide)
  · rename_i heq; injection heq with h1 h2; exact absurd h1 (by decide)
  · rename_i heq; injection heq with h1 h2; exact absurd h1 (by decide)
  · rename_i heq; injection heq with h1 h2; exact absurd h1 (by decide)
  · rename_i heq; injection heq with h1 h2; exact absurd h1 (by decide)
  · rename_i hbrace hbrack hquote htr hfa hnu heq
    injection heq with h1 h2
    exact absurd h1.symm hbrace
  · rename_i heq; exact absurd heq (by simp)

/-- Dispatch: a quote starts an object member. -/
theorem parseFields_quote (f : Nat) (u : List Char) :
    parseFields (f+1) ('"' :: u) = (do
      let kp ← parseStringBody u
      match skipWs kp.2 with
      | ':' :: r2 => do
          let vp ← parseValue f r2
          match skipWs vp.2 with
          | ',' :: r4 => (parseFields f r4).map (fun q => ((kp.1, vp.1) :: q.1, q.2))
          | '\x7d' :: r4 => some ([(kp.1, vp.1)], r4)
          | _ => none
      | _ => none) := by
  conv_lhs => unfold parseFields
  rw [skipWs_not_ws _ (by decide : isWsChar '"' = false)]
  split
  · rename_i heq
    injection heq with h1 h2
    subst h2
    rfl
  · rename_i hquote heq
    exact (heq u rfl).elim

/-- A rendered array of string literals parses as that array. -/
theorem parseValue_renderArr (names : List Name) (g : Nat) (rest : List Char) :
    parseValue (g + names.length + 2) (render (.arr (names.map .str)) ++ rest) =
      some (.arr (names.map .str), rest) := by
  cases names with
  | nil =>
    simp only [List.map, render, renderElems]
    simp only [List.nil_append, List.cons_append]
    conv_lhs => unfold parseValue
    rw [skipWs_not_ws _ (by decide)]
    simp [skipWs, isWsChar]
  | cons x xs =>
    rw [show g + (x :: xs).length + 2 = (g + (x :: xs).length + 1) + 1 from rfl]
    simp only [render]
    rw [List.cons_append, List.append_assoc, List.singleton_append]
    obtain ⟨t, ht⟩ := renderElems_strs_cons x xs
    rw [ht, List.cons_append]
    rw [parseValue_open_bracket _ _ _ (by decide) (by decide)]
    rw [← List.cons_append, ← ht]
    rw [parseElems_strs (x :: xs) (by simp) g rest]
    simp

/-- A rendered single object member holding an array of strings parses as
that member, up to the closing brace. -/
theorem parseFields_one (k : Name) (ps : List Name) (g : Nat) (rest : List Char) :
    parseFields ((g + ps.length + 2) + 1)
        (renderFields [(k, .arr (ps.map .str))] ++ '\x7d' :: rest) =
      some ([(k, .arr (ps.map .str))], rest) := by
  have hfield : renderFields [(k, Json.arr (ps.map .str))] ++ '\x7d' :: rest =
      '"' :: (escapeStr k ++ '"' ::
        (':' :: (render (.arr (ps.map .str)) ++ '\x7d' :: rest))) := by
    simp [renderFields, renderStr, List.append_assoc]
  rw [hfield, parseFields_quote, parseStringBody_escape]
  simp only [bind, Option.bind]
  rw [skipWs_not_ws _ (by decide : isWsChar ':' = false)]
  split
  · rename_i heq
    injection heq with h1 h2
    subst h2
    rw [parseValue_renderArr ps g ('\x7d' :: rest)]
    simp only [bind, Option.bind]
    rw [skipWs_not_ws _ (by decide : isWsChar '\x7d' = false)]
    split
    · rename_i heq2; injection heq2 with h3 h4; exact absurd h3 (by decide)
    · rename_i heq2
      injection heq2 with h3 h4
      subst h4
      rfl
    · rename_i hcomma hbrace
      exact (hbrace rest rfl).elim
  · rename_i hcolon
    exact (hcolon _ rfl).elim

/-- Two rendered object members holding arrays of strings parse as those
members, up to the closing brace. -/
theorem parseFields_two (k1 k2 : Name) (ps cs : List Name) (g : Nat) (rest : List Char) :
    parseFields ((g + ps.length + cs.length + 5) + 1)
        (renderFields [(k1, .arr (ps.map .str)), (k2, .arr (cs.map .str))] ++
          '\x7d' :: rest) =
      some ([(k1, .arr (ps.map .str)), (k2, .arr (cs.map .str))], rest) := by
  have hfield : renderFields [(k1, Json.arr (ps.map .str)), (k2, Json.arr (cs.map .str))] ++
      '\x7d' :: rest =
      '"' :: (escapeStr k1 ++ '"' :: (':' :: (render (.arr (ps.map .str)) ++
        ',' :: (renderFields [(k2, Json.arr (cs.map .str))] ++ '\x7d' :: rest)))) := by
    simp [renderFields, renderStr, List.append_assoc]
  rw [hfield, parseFields_quote, parseStringBody_escape]
  simp only [bind, Option.bind]
  rw [skipWs_not_ws _ (by decide : isWsChar ':' = false)]
  split
  · rename_i heq
    injection heq with h1 h2
    subst h2
    rw [show g + ps.length + cs.length + 5 = (g + cs.length + 3) + ps.length + 2 from by omega]
    rw [parseValue_renderArr ps (g + cs.length + 3) _]
    simp only [bind, Option.bind]
    rw [skipWs_not_ws _ (by decide : isWsChar ',' = false)]
    split
    · rename_i heq2
      injection heq2 with h3 h4
      subst h4
      rw [show (g + cs.length + 3) + ps.length + 2 =
          ((g + ps.length + 2) + cs.length + 2) + 1 from by omega]
      rw [parseFields_one k2 cs (g + ps.length + 2) rest]
      rfl
    · rename_i heq2; injection heq2 with h3 h4; exact absurd h3 (by decide)
    · rename_i hcomma hbrace
      exact (hcomma _ rfl).elim
  · rename_i hcolon
    exact (hcolon _ rfl).elim

/-- A rendered one-member object parses as that object. -/
theorem parseValue_obj1 (k : Name) (ps : List Name) (g : Nat) (rest : List Char) :
    parseValue (((g + ps.length + 2) + 1) + 1)
        (render (.obj [(k, .arr (ps.map .str))]) ++ rest) =
      some (.obj [(k, .arr (ps.map .str))], rest) := by
  have hr : render (.obj [(k, Json.arr (ps.map .str))]) ++ rest =
      '\x7b' :: (renderFields [(k, Json.arr (ps.map .str))] ++ '\x7d' :: rest) := by
    simp [render, List.append_assoc]
  rw [hr]
  have hhead : renderFields [(k, Json.arr (ps.map .str))] ++ '\x7d' :: rest =
      '"' :: (escapeStr k ++ '"' ::
        (':' :: (render (.arr (ps.map .str)) ++ '\x7d' :: rest))) := by
    simp [renderFields, renderStr, List.append_assoc]
  rw [hhead, parseValue_open_brace _ _ _ (by decide) (by decide), ← hhead]
  rw [parseFields_one k ps g rest]
  rfl

/-- A rendered two-member object parses as that object. -/
theorem parseValue_obj2 (k1 k2 : Name) (ps cs : List Name) (g : Nat) (rest : List Char) :
    parseValue (((g + ps.length + cs.length + 5) + 1) + 1)
        (render (.obj [(k1, .arr (ps.map .str)), (k2, .arr (cs.map .str))]) ++ rest) =
      some (.obj [(k1, .arr (ps.map .str)), (k2, .arr (cs.map .str))], rest) := by
  have hr : render (.obj [(k1, Json.arr (ps.map .str)), (k2, Json.arr (cs.map .str))]) ++
      rest =
      '\x7b' :: (renderFields [(k1, Json.arr (ps.map .str)), (k2, Json.arr (cs.map .str))] ++
        '\x7d' :: rest) := by
    simp [render, List.append_assoc]
  rw [hr]
  have hhead : renderFields [(k1, Json.arr (ps.map .str)), (k2, Json.arr (cs.map .str))] ++
      '\x7d' :: rest =
      '"' :: (escapeStr k1 ++ '"' :: (':' :: (render (.arr (ps.map .str)) ++
        ',' :: (renderFields [(k2, Json.arr (cs.map .str))] ++ '\x7d' :: rest)))) := by
    simp [renderFields, renderStr, List.append_assoc]
  rw [hhead, parseValue_open_brace _ _ _ (by decide) (by decide), ← hhead]
  rw [parseFields_two k1 k2 ps cs g rest]
  rfl

/-- Escaping can only lengthen a string. -/
theorem length_escapeStr (s : Name) : s.length ≤ (escapeStr s).length := by
  induction s with
  | nil => simp [escapeStr]
  | cons c cs ih =>
    unfold escapeStr
    split <;> simp <;> omega

/-- A rendered run of string elements is at least as long as its count. -/
theorem length_renderElems_strs (names : List Name) :
    names.length ≤ (renderElems (names.map .str)).length := by
  induction names with
  | nil => simp [renderElems]
  | cons x xs ih =>
    cases xs with
    | nil => simp [renderElems, render, renderStr, List.map]
    | cons y ys =>
      have hr : renderElems ((x :: y :: ys).map .str) =
          renderStr x ++ ',' :: renderElems ((y :: ys).map .str) := by
        simp [List.map, renderElems, render]
      rw [hr]
      have h1 : (renderStr x).length = (escapeStr x).length + 2 := by simp [renderStr]
      simp only [List.length_append, List.length_cons, h1] at ih ⊢
      omega

/-- A rendered array of string elements is at least two longer than its
count. -/
theorem length_render_arr_strs (names : List Name) :
    names.length + 2 ≤ (render (.arr (names.map .str))).length := by
  have := length_renderElems_strs names
  simp only [render]
  simp
  omega

/-- A rendered one-member object holding an array of string elements is
long enough to fuel its own parse. -/
theorem length_render_obj1 (k : Name) (ps : List Name) :
    ps.length + 3 ≤ (render (.obj [(k, .arr (ps.map .str))])).length := by
  have h1 := length_render_arr_strs ps
  have h0 : (render (.arr (ps.map .str))).length =
      (renderElems (ps.map .str)).length + 2 := by
    simp [render]
  simp only [render, renderFields]
  simp [renderStr]
  omega

/-- A rendered two-member object holding arrays of string elements is long
enough to fuel its own parse. -/
theorem length_render_obj2 (k1 k2 : Name) (ps cs : List Name) :
    ps.length + cs.length + 6 ≤
      (render (.obj [(k1, .arr (ps.map .str)), (k2, .arr (cs.map .str))])).length := by
  have h1 := length_render_arr_strs ps
  have h2 := length_render_arr_strs cs
  have h0 : (render (.arr (ps.map .str))).length =
      (renderElems (ps.map .str)).length + 2 := by
    simp [render]
  have h0c : (render (.arr (cs.map .str))).length =
      (renderElems (cs.map .str)).length + 2 := by
    simp [render]
  simp only [render, renderFields]
  simp [renderStr]
  omega

/-- The JSON primitive reads back a rendered one-member object. -/
theorem to_json_obj1 (k : Name) (ps : List Name) :
    to_json_value (render (.obj [(k, .arr (ps.map .str))])) =
      some (.obj [(k, .arr (ps.map .str))]) := by
  unfold to_json_value
  generalize hL : (render (.obj [(k, Json.arr (ps.map .str))])).length = L
  have hlen : ps.length + 3 ≤ L := hL ▸ length_render_obj1 k ps
  rw [show L + 1 = (((L - ps.length - 3) + ps.length + 2) + 1) + 1 from by omega]
  rw [show render (.obj [(k, Json.arr (ps.map .str))]) =
      render (.obj [(k, Json.arr (ps.map .str))]) ++ [] from (List.append_nil _).symm]
  rw [parseValue_obj1 k ps (L - ps.length - 3) []]
  rfl

/-- The JSON primitive reads back a rendered two-member object. -/
theorem to_json_obj2 (k1 k2 : Name) (ps cs : List Name) :
    to_json_value (render (.obj [(k1, .arr (ps.map .str)), (k2, .arr (cs.map .str))])) =
      some (.obj [(k1, .arr (ps.map .str)), (k2, .arr (cs.map .str))]) := by
  unfold to_json_value
  generalize hL : (render (.obj [(k1, Json.arr (ps.map .str)),
    (k2, Json.arr (cs.map .str))])).length = L
  have hlen : ps.length + cs.length + 6 ≤ L := hL ▸ length_render_obj2 k1 k2 ps cs
  rw [show L + 1 = (((L - ps.length - cs.length - 6) + ps.length + cs.length + 5) + 1) + 1
    from by omega]
  rw [show render (.obj [(k1, Json.arr (ps.map .str)), (k2, Json.arr (cs.map .str))]) =
      render (.obj [(k1, Json.arr (ps.map .str)), (k2, Json.arr (cs.map .str))]) ++ []
    from (List.append_nil _).symm]
  rw [parseValue_obj2 k1 k2 ps cs (L - ps.length - cs.length - 6) []]
  rfl

/-- The resolution loop on a list of string elements returns the names. -/
theorem resolveAll_strs {resolve : Resolver} {names : List Name}
    (h : ∀ n ∈ names, resolve n = true) :
    resolveAll resolve (names.map .str) = .ok names := by
  have h2 : ∀ e ∈ names.map Json.str, resolve (asStringCore e) = true := by
    intro e he
    obtain ⟨n, hn, rfl⟩ := List.mem_map.mp he
    exact h n hn
  rw [resolveAll_ok_of h2, List.map_map]
  have hcomp : asStringCore ∘ Json.str = id := rfl
  rw [hcomp, List.map_id]

/-- Serializing a lone composite target yields the pk-only JSON object. -/
theorem serialize_multi_nock (pks : List Name) :
    serialize_targets [.multiple pks] =
      render (.obj [(pkKey, .arr (pks.map .str))]) := rfl

/-- Serializing a composite pk target followed by single ck targets yields
the two-field JSON object. -/
theorem serialize_multi_ck (pks cks : List Name) (hck : cks ≠ []) :
    serialize_targets (.multiple pks :: cks.map .single) =
      render (.obj [(pkKey, .arr (pks.map .str)), (ckKey, .arr (cks.map .str))]) := by
  cases cks with
  | nil => exact absurd rfl hck
  | cons c cs' =>
    show serialize_targets (.multiple pks :: .single c :: cs'.map .single) = _
    have hcomp : asJsonVisitor ∘ IndexTargetValue.single = Json.str := rfl
    simp [serialize_targets, asJsonVisitor, Json.isArray, List.map_map, hcomp]

/-- Parsing the rendered pk-only object recovers its columns. -/
theorem parse_render_obj1 {resolve : Resolver} (pks : List Name)
    (hres : ∀ n ∈ pks, resolve n = true) :
    parse resolve (render (.obj [(pkKey, .arr (pks.map .str))])) =
      .ok ⟨pks, [], .values⟩ := by
  have hr2 : ∀ e ∈ (pks.map Json.str) ++ ([] : List Json),
      resolve (asStringCore e) = true := by
    intro e he
    rw [List.append_nil] at he
    obtain ⟨n, hn, rfl⟩ := List.mem_map.mp he
    exact hres n hn
  have h := parse_json_ok (to_json_obj1 pkKey pks) rfl rfl rfl hr2
  rw [h]
  have hcomp : asStringCore ∘ Json.str = id := rfl
  simp [List.map_map, hcomp]

/-- Parsing the rendered two-field object recovers its pk and ck columns. -/
theorem parse_render_obj2 {resolve : Resolver} (pks cks : List Name)
    (hrp : ∀ n ∈ pks, resolve n = true) (hrc : ∀ n ∈ cks, resolve n = true) :
    parse resolve (render (.obj [(pkKey, .arr (pks.map .str)),
        (ckKey, .arr (cks.map .str))])) =
      .ok ⟨pks, cks, .values⟩ := by
  have hr2 : ∀ e ∈ (pks.map Json.str) ++ (cks.map Json.str),
      resolve (asStringCore e) = true := by
    intro e he
    rcases List.mem_append.mp he with he | he <;>
      · obtain ⟨n, hn, rfl⟩ := List.mem_map.mp he
        first
          | exact hrp n hn
          | exact hrc n hn
  have h := parse_json_ok (to_json_obj2 pkKey ckKey pks cks) rfl rfl rfl hr2
  rw [h]
  have hcomp : asStringCore ∘ Json.str = id := rfl
  simp [List.map_map, hcomp]

set_option maxHeartbeats 4000000 in
/-- C1 counterexample: the round trip fails for a JSON-path descriptor
whose single partition-key column is literally named keys(x) — it
serializes to the bare string keys(x), which re-parses through the
functional regex as a keys-mode target on column x and fails resolution,
rather than reproducing the original column. -/
theorem claim_c1_counterexample :
    parse (fun n => n == "keys(x)".data) "\x7b\"pk\":[\"keys(x)\"]\x7d".data =
      .ok ⟨["keys(x)".data], [], .values⟩ ∧
    serialize_targets (targets_of ⟨["keys(x)".data], [], .values⟩) = "keys(x)".data ∧
    parse (fun n => n == "keys(x)".data) "keys(x)".data =
      .error (.columnNotFound "x".data) :=
  ⟨rfl, rfl, rfl⟩

/-- C1 amended: for a descriptor from the JSON-object or bare path, the
round trip through `serialize` and `parse` under the same resolver
reproduces the partition-key and clustering-key columns, provided that in
the lone-single-column case the column's name is itself neither a
functional-form match nor a JSON object (the counterexample shows the
claim false without that proviso). -/
theorem claim_c1_amended {resolve : Resolver} {s : List Char} {d : TargetInfo}
    (hp : parse resolve s = .ok d)
    (hpath : matchTarget s = none)
    (hbenign : ∀ c, d.pk_columns = [c] → d.ck_columns = [] →
       matchTarget c = none ∧ ∀ j, to_json_value c = some j → j.isObject = false) :
    ∃ d', parse resolve (serialize_targets (targets_of d)) = .ok d' ∧
      d'.pk_columns = d.pk_columns ∧ d'.ck_columns = d.ck_columns := by
  rcases parse_ok_shape hp hpath with ⟨rfl, hres, hnj⟩ |
    ⟨j, pes, ces, hv, hobj, hpk, hck, rfl, hpres, hcres⟩
  · refine ⟨⟨[s], [], .values⟩, ?_, rfl, rfl⟩
    rw [show serialize_targets (targets_of ⟨[s], [], .values⟩) = s from rfl]
    rw [parse_bare_eq hpath hnj, if_pos hres]
  · have hresn : ∀ n ∈ pes.map asStringCore, resolve n = true := by
      intro n hn
      obtain ⟨e, he, rfl⟩ := List.mem_map.mp hn
      exact hpres e he
    have hresc : ∀ n ∈ ces.map asStringCore, resolve n = true := by
      intro n hn
      obtain ⟨e, he, rfl⟩ := List.mem_map.mp hn
      exact hcres e he
    by_cases hsingle : (∃ c, pes.map asStringCore = [c]) ∧ ces.map asStringCore = []
    · obtain ⟨⟨c, hc⟩, hcs⟩ := hsingle
      have ht : targets_of ⟨pes.map asStringCore, ces.map asStringCore, .values⟩ =
          [.single c] := by
        unfold targets_of
        rw [hc, hcs]
      obtain ⟨hmc, hjc⟩ := hbenign c hc hcs
      have hrc : resolve c = true := hresn c (by rw [hc]; simp)
      refine ⟨⟨[c], [], .values⟩, ?_, by rw [hc], by rw [hcs]⟩
      rw [ht, show serialize_targets [.single c] = c from rfl]
      rw [parse_bare_eq hmc hjc, if_pos hrc]
    · have ht : targets_of ⟨pes.map asStringCore, ces.map asStringCore, .values⟩ =
          .multiple (pes.map asStringCore) :: (ces.map asStringCore).map .single := by
        unfold targets_of
        split
        · rename_i heq1 heq2
          exact absurd ⟨⟨_, heq1⟩, heq2⟩ hsingle
        · rfl
      cases hcs : ces.map asStringCore with
      | nil =>
        rw [hcs] at ht hresc
        refine ⟨⟨pes.map asStringCore, [], .values⟩, ?_, rfl, rfl⟩
        rw [ht]
        rw [show ([] : List Name).map IndexTargetValue.single = [] from rfl]
        rw [serialize_multi_nock]
        exact parse_render_obj1 (pes.map asStringCore) hresn
      | cons c0 cs0 =>
        rw [hcs] at ht hresc
        refine ⟨⟨pes.map asStringCore, c0 :: cs0, .values⟩, ?_, rfl, rfl⟩
        rw [ht, serialize_multi_ck (pes.map asStringCore) (c0 :: cs0) (by simp)]
        exact parse_render_obj2 (pes.map asStringCore) (c0 :: cs0) hresn hresc

set_option maxHeartbeats 4000000 in
/-- Witness for the amended C1: a JSON-path descriptor with the single
benign column a round-trips through the serializer. -/
theorem claim_c1_amended_witness :
    ∃ d', parse (fun n => n == ['a'])
        (serialize_targets (targets_of ⟨[['a']], [], .values⟩)) = .ok d' ∧
      d'.pk_columns = [['a']] ∧ d'.ck_columns = ([] : List Name) := by
  have h := @claim_c1_amended (fun n => n == ['a']) "\x7b\"pk\":[\"a\"]\x7d".data
    ⟨[['a']], [], .values⟩ rfl rfl ?_
  · exact h
  · intro c hc hck
    have hc' : c = ['a'] := by
      injection hc with h1 h2
      exact h1.symm
    subst hc'
    exact ⟨rfl, fun j hj => by rw [show to_json_value ['a'] = none from rfl] at hj; cases hj⟩

end SecondaryIndex
